import Mathlib

/-!
Verification of the speaker-diarization streaming backend (`backend/main.py`).

The development shallowly embeds the per-connection pipeline of the source:

* the voice-activity gate of `request_generator` (frame classification,
  preroll deque, hangover counter, lines 86-139 of `main.py`);
* the keepalive branch of the receive loop (lines 106-110), with monotonic
  time modelled as exact integer milliseconds;
* the final-result stabilization loop of `websocket_endpoint`
  (lines 150-250): transcript check, watermark duplicate suppression,
  tag histogram with optional tail weighting, and the Python `max`
  argmax with its first-wins tie behaviour.

Python `dict` insertion order is modelled by association lists updated in
place, and Python `max(..., key=...)` by a left fold that replaces the
current best only on a strictly larger key.
-/

namespace Diar

/-! ### Voice-activity gate (`request_generator`, lines 86-139) -/

/-- Gate state of `request_generator`: `speech_active`, the preroll deque
and the `unvoiced_count` hangover counter. -/
structure GateSt (F : Type) where
  speech_active : Bool
  preroll : List F
  unvoiced_count : Nat
  deriving Repr, DecidableEq

/-- Initial gate state (lines 87-93: `speech_active = False`, empty deque,
`unvoiced_count = 0`). -/
def initGate (F : Type) : GateSt F := ⟨false, [], 0⟩

/-- `collections.deque(maxlen=m).append x`: append on the right, evicting
from the left whatever exceeds the capacity. -/
def dequeAppend (maxlen : Nat) (q : List F) (x : F) : List F :=
  let q2 := q ++ [x]
  if maxlen < q2.length then q2.drop (q2.length - maxlen) else q2

/-- One iteration of the per-frame gate (lines 116-139 of `main.py`): the
frame together with its external `is_speech` classification goes in, the
updated state and the frames yielded upstream come out.  Note that in the
source the current frame is appended to the preroll deque *before* the
`is_speech` test, so the flush `list(preroll)` already contains it. -/
def gateStep (hangover_frames preroll_frames : Nat) (st : GateSt F)
    (frame : F) (is_speech : Bool) : GateSt F × List F :=
  if st.speech_active = false then
    let preroll2 := dequeAppend preroll_frames st.preroll frame
    if is_speech then
      (⟨true, [], 0⟩, preroll2 ++ [frame])
    else
      (⟨false, preroll2, st.unvoiced_count⟩, [])
  else
    if is_speech then
      (⟨true, st.preroll, 0⟩, [frame])
    else
      let u := st.unvoiced_count + 1
      if hangover_frames ≤ u then
        (⟨false, [], 0⟩, [frame])
      else
        (⟨true, st.preroll, u⟩, [frame])

/-- Run the gate over a list of classified frames, collecting everything it
yields upstream, in order. -/
def runGate (hangover_frames preroll_frames : Nat) (st : GateSt F) :
    List (F × Bool) → List F
  | [] => []
  | (f, s) :: rest =>
    let step := gateStep hangover_frames preroll_frames st f s
    step.2 ++ runGate hangover_frames preroll_frames step.1 rest

/-! ### Gate configuration (lines 62-92) -/

/-- The VAD-loop configuration computed in `request_generator`. -/
structure GateConfig where
  frame_ms : Nat
  frame_bytes : Nat
  preroll_frames : Nat
  hangover_frames : Nat
  deriving Repr, DecidableEq

/-- Configuration as the source computes it: `frame_ms = 30`,
`frame_bytes = int(16000 * 30 / 1000) * 2`, and
`preroll_frames = max(1, preroll_ms // frame_ms)`,
`hangover_frames = max(1, hangover_ms // frame_ms)` (lines 62-65, 90-91),
with `//` the floor division of nonnegative integers. -/
def mkGateConfig (preroll_ms hangover_ms : Nat) : GateConfig :=
  let frame_ms := 30
  { frame_ms := frame_ms
    frame_bytes := 16000 * frame_ms / 1000 * 2
    preroll_frames := max 1 (preroll_ms / frame_ms)
    hangover_frames := max 1 (hangover_ms / frame_ms) }

/-! ### Keepalive branch (lines 96-110) -/

/-- The `asyncio.TimeoutError` handler of the receive loop, lines 106-110:
given the gate's `speech_active` flag, the keepalive interval, the stored
`last_client_data_ts` and the current monotonic time (both in exact
milliseconds), decide whether a zero frame is yielded.  The stored
timestamp is returned unchanged: the source never reassigns
`last_client_data_ts` in this branch. -/
def timeoutStep (keepalive_ms : Int) (speech_active : Bool)
    (last_client_data_ts now : Int) : Bool × Int :=
  if speech_active = false ∧ keepalive_ms ≤ now - last_client_data_ts then
    (true, last_client_data_ts)
  else
    (false, last_client_data_ts)

/-- Run the timeout handler over a list of timeout instants (gate IDLE, no
client data in between, so `speech_active = false` and the timestamp is
whatever `timeoutStep` keeps), returning the instants at which a keepalive
frame was synthesized. -/
def runKeepalive (keepalive_ms last_client_data_ts : Int) :
    List Int → List Int
  | [] => []
  | t :: ts =>
    let step := timeoutStep keepalive_ms false last_client_data_ts t
    (if step.1 then [t] else []) ++ runKeepalive keepalive_ms step.2 ts

/-! ### Receive-loop events (lines 101-110)

The VAD receive loop reacts to two kinds of events: a classified frame
drained from the byte buffer after client data arrived (which also
refreshes `last_client_data_ts`), or an `asyncio.TimeoutError` on the
bounded receive. -/

/-- An event of the VAD receive loop, at frame granularity.  `now` is the
monotonic clock in exact milliseconds. -/
inductive LoopEvent (F : Type) where
  | frame (f : F) (is_speech : Bool) (now : Int)
  | timeout (now : Int)

/-- Combined per-connection send-path state: the gate plus
`last_client_data_ts`. -/
structure LoopSt (F : Type) where
  gate : GateSt F
  last_client_data_ts : Int

/-- One receive-loop reaction (lines 101-139): a frame event updates the
timestamp and runs the gate; a timeout event runs the keepalive check of
lines 106-110 and, when it fires, yields one frame of `frame_bytes` zero
bytes (`zero_frame = b"\x00" * frame_bytes`, line 98). -/
def loopStep (cfg : GateConfig) (keepalive_ms : Int) (st : LoopSt (List Nat)) :
    LoopEvent (List Nat) → LoopSt (List Nat) × List (List Nat)
  | .frame f s now =>
    let g := gateStep cfg.hangover_frames cfg.preroll_frames st.gate f s
    (⟨g.1, now⟩, g.2)
  | .timeout now =>
    let k := timeoutStep keepalive_ms st.gate.speech_active
      st.last_client_data_ts now
    (⟨st.gate, k.2⟩, if k.1 then [List.replicate cfg.frame_bytes 0] else [])

/-! ### Recognition results and stabilization (`websocket_endpoint`, lines 150-250) -/

/-- A protobuf `Duration` as read by `to_ns`: `seconds` and `nanos`. -/
structure PDuration where
  seconds : Int
  nanos : Int
  deriving Repr, DecidableEq

/-- One recognized word: optional `speaker_tag` and optional `end_time`
(`getattr(w, ..., None)` in the source). -/
structure WordInfo where
  speaker_tag : Option Int
  end_time : Option PDuration
  deriving Repr, DecidableEq

/-- One recognition alternative: `transcript` and `words`. -/
structure RecAlternative where
  transcript : String
  words : List WordInfo
  deriving Repr, DecidableEq

/-- One streaming recognition result. -/
structure RecResult where
  is_final : Bool
  alternatives : List RecAlternative
  deriving Repr, DecidableEq

/-- Per-connection stabilization state: the duplicate-suppression
watermark `last_max_word_end_ns` (line 150, initially `None`). -/
structure StabState where
  last_max_word_end_ns : Option Int
  deriving Repr, DecidableEq

/-- The JSON event sent to the client (lines 246-250). -/
structure StabilizedEvent where
  speaker_tag : Int
  transcript : String
  is_final : Bool
  deriving Repr, DecidableEq

/-- `to_ns` of the source (lines 166-168). -/
def to_ns (d : PDuration) : Int := d.seconds * 1000000000 + d.nanos

/-- ASCII whitespace as recognized by Python `str.strip`. -/
def pySpace (c : Char) : Bool :=
  c = ' ' ∨ c = '\t' ∨ c = '\n' ∨ c = '\r' ∨ c = Char.ofNat 11 ∨ c = Char.ofNat 12

/-- `not transcript or not transcript.strip()` (line 161): the string is
empty or consists only of whitespace. -/
def pyBlank (s : String) : Bool := s.toList.all pySpace

/-- Python `max` over a list of integers, `none` on the empty list (the
source materializes `[...] or [None]` and takes `max`, so an empty
comprehension yields `None`). -/
def maxOfList : List Int → Option Int
  | [] => none
  | x :: xs => some (xs.foldl max x)

/-- `current_max_end_ns` of lines 170-172: maximum `to_ns(end_time)` over
the words that carry an `end_time`, `none` when no word does. -/
def currentMaxEnd (words : List WordInfo) : Option Int :=
  maxOfList (words.filterMap (fun w => w.end_time.map to_ns))

/-- The suppression test of line 173: both the current maximum and the
watermark are defined and the current maximum has not advanced. -/
def dupCheck : Option Int → Option Int → Bool
  | some c, some l => c ≤ l
  | _, _ => false

/-- `d[tag] = d.get(tag, 0) + k` on an insertion-ordered dict modelled as
an association list: update in place if present, append if absent. -/
def bump (h : List (Int × Int)) (t : Int) (k : Int) : List (Int × Int) :=
  match h with
  | [] => [(t, k)]
  | (a, n) :: rest => if a = t then (a, n + k) :: rest else (a, n) :: bump rest t k

/-- Fold `bump` over a list of tags with a fixed increment. -/
def bumpAll (h : List (Int × Int)) (ts : List Int) (k : Int) : List (Int × Int) :=
  ts.foldl (fun h2 t => bump h2 t k) h

/-- The defined `speaker_tag`s of a word list, in word order. -/
def wordTags (words : List WordInfo) : List Int :=
  words.filterMap (fun w => w.speaker_tag)

/-- `start_idx = max(0, len(words) - tail_words)` (line 198). -/
def tailStart (numWords : Nat) (tail_words : Int) : Nat :=
  (max 0 ((numWords : Int) - tail_words)).toNat

/-- `tag_counts` of lines 185-204: one count per word with a defined tag,
then, when `tail_weight > 1 and tail_words > 0`, an extra
`tail_weight - 1` for each tagged word among `words[start_idx:]`. -/
def tagCounts (tail_words tail_weight : Int) (words : List WordInfo) :
    List (Int × Int) :=
  let base := bumpAll [] (wordTags words) 1
  if 1 < tail_weight ∧ 0 < tail_words then
    bumpAll base (wordTags (words.drop (tailStart words.length tail_words)))
      (tail_weight - 1)
  else base

/-- Python `max(items, key=lambda kv: kv[1])`: scan left to right, replace
the current best only on a strictly larger second component, so the first
maximal item wins ties. -/
def pyMaxBySnd (best : Int × Int) : List (Int × Int) → Int × Int
  | [] => best
  | x :: xs => pyMaxBySnd (if best.2 < x.2 then x else best) xs

/-- Processing of one streaming result by the loop body of
`websocket_endpoint` (lines 152-250): returns the event sent to the
client, if any, and the updated stabilization state. -/
def processResult (tail_words tail_weight : Int) (st : StabState)
    (r : RecResult) : Option StabilizedEvent × StabState :=
  if r.is_final = false then (none, st) else
  match r.alternatives with
  | [] => (none, st)
  | alt :: _ =>
    match alt.words with
    | [] => (none, st)
    | _ :: _ =>
      if pyBlank alt.transcript then (none, st) else
      let current := currentMaxEnd alt.words
      if dupCheck current st.last_max_word_end_ns then (none, st) else
      let st2 : StabState :=
        match current with
        | some c => ⟨some c⟩
        | none => st
      match tagCounts tail_words tail_weight alt.words with
      | [] => (none, st2)
      | c0 :: crest =>
        (some ⟨(pyMaxBySnd c0 crest).1, alt.transcript, true⟩, st2)

/-- Fold `processResult` over a whole sequence of results, keeping the
state (the event stream is irrelevant to the watermark claims). -/
def processAll (tail_words tail_weight : Int) (st : StabState) :
    List RecResult → StabState
  | [] => st
  | r :: rs =>
    processAll tail_words tail_weight (processResult tail_words tail_weight st r).2 rs

/-! ### Specification-level counterparts used by the refinement claims -/

/-- Tags in order of first occurrence, skipping those already `seen`. -/
def firstOccurAux (seen : List Int) : List Int → List Int
  | [] => []
  | t :: ts =>
    if t ∈ seen then firstOccurAux seen ts
    else t :: firstOccurAux (t :: seen) ts

/-- The distinct tags of a list in first-encountered order — the key order
of an insertion-ordered histogram. -/
def firstOccurList (l : List Int) : List Int := firstOccurAux [] l

/-- The defined tags of the last `tail_words` words (all of them when
`tail_words` exceeds the word count, none when it is nonpositive). -/
def tailTags (tail_words : Int) (words : List WordInfo) : List Int :=
  wordTags (words.drop (words.length - tail_words.toNat))

/-- Weighted histogram count as the specification words it: each word with
this defined tag counts once, and each of the last `tail_words` words with
this tag adds another `tail_weight - 1`. -/
def specWeight (tail_words tail_weight : Int) (words : List WordInfo)
    (t : Int) : Int :=
  ((wordTags words).count t : Int) +
    (tail_weight - 1) * ((tailTags tail_words words).count t : Int)

/-- First element maximizing `f`, scanning left to right and replacing the
best only on a strictly larger value. -/
def argmaxFirstAux (f : Int → Int) (best : Int) : List Int → Int
  | [] => best
  | t :: ts => argmaxFirstAux f (if f best < f t then t else best) ts

/-- Argmax of `f` over a list, ties broken in favour of the earlier
element; `none` on the empty list. -/
def argmaxFirst (f : Int → Int) : List Int → Option Int
  | [] => none
  | t :: ts => some (argmaxFirstAux f t ts)

/-! ### Hysteresis stabilizer variant -/

/-- Modelled from the spec: the trailing run of consecutive words (counted
from the end of the segment) whose tag matches the candidate, used by the
switch-hysteresis variant whose source file is not part of `src/`. -/
def trailingRun (candidate : Int) (words : List WordInfo) : Nat :=
  (words.reverse.takeWhile (fun w => w.speaker_tag == some candidate)).length

/-- Modelled from the spec: switch hysteresis (spec §4.5 step 6).  If a
previous tag exists, the candidate differs from it, and the trailing run
of words matching the candidate is shorter than `min_switch_words`, keep
the previous tag; otherwise accept the candidate and update the previous
tag.  Returns (emitted tag, updated previous tag). -/
def hysteresisChoose (min_switch_words : Nat) (prev : Option Int)
    (candidate : Int) (words : List WordInfo) : Int × Option Int :=
  match prev with
  | some p =>
    if p ≠ candidate ∧ trailingRun candidate words < min_switch_words then
      (p, some p)
    else (candidate, some candidate)
  | none => (candidate, some candidate)

/-- Modelled from the spec: the non-weighted stabilizer variant — the
candidate is the plain histogram argmax over defined word tags (ties to
the first-encountered tag), followed by switch hysteresis; `none` when no
word carries a tag. -/
def hysteresisStabilize (min_switch_words : Nat) (prev : Option Int)
    (words : List WordInfo) : Option (Int × Option Int) :=
  match argmaxFirst (fun t => ((wordTags words).count t : Int))
      (firstOccurList (wordTags words)) with
  | none => none
  | some cand => some (hysteresisChoose min_switch_words prev cand words)

/-- Lookup in an insertion-ordered histogram (`d.get(t)`). -/
def histGet : List (Int × Int) → Int → Option Int
  | [], _ => none
  | (a, n) :: rest, t => if a = t then some n else histGet rest t

/-! ### Concrete inputs used to instantiate the theorems -/

/-- A word carrying only a speaker tag. -/
def tagWord (t : Int) : WordInfo := ⟨some t, none⟩

/-- A word carrying a speaker tag and an end time of `ns` nanoseconds. -/
def timedWord (t ns : Int) : WordInfo := ⟨some t, some ⟨0, ns⟩⟩

/-- A final result with one alternative built from a transcript and words. -/
def mkFinal (transcript : String) (words : List WordInfo) : RecResult :=
  ⟨true, [⟨transcript, words⟩]⟩

end Diar

namespace Diar

/-! ## Theorems -/

/-- Claim C1, failing input: from the initial IDLE state with the default
configuration (hangover 13, preroll capacity 5), a silence frame `0`
followed by a speech frame `1` makes the gate emit `[0, 1, 1]`: the onset
frame is forwarded twice (the source appends it to the preroll deque
before flushing `list(preroll)` and then yields it again), contradicting
the claim that each forwarded frame is emitted exactly once. -/
theorem C1_onset_frame_emitted_twice :
    runGate 13 5 (initGate Nat) [(0, false), (1, true)] = [0, 1, 1] ∧
    (runGate 13 5 (initGate Nat) [(0, false), (1, true)]).count 1 = 2 := by
  constructor <;> rfl

/-- Claim C2, counterexample: with the default `hangover_ms = 400` and
`frame_ms = 30` the source computes `hangover_frames = max(1, 400 // 30)
= 13`, while the claimed `ceil(400/30)` (minimum 1) is `14`; likewise
`preroll_ms = 40` gives capacity `1`, not the claimed `ceil(40/30) = 2`. -/
theorem C2_floor_not_ceil :
    (mkGateConfig 150 400).hangover_frames = 13 ∧
    max 1 ((400 + 30 - 1) / 30) = 14 ∧
    (mkGateConfig 150 400).hangover_frames ≠ max 1 ((400 + 30 - 1) / 30) ∧
    (mkGateConfig 40 400).preroll_frames = 1 ∧
    (mkGateConfig 40 400).preroll_frames ≠ max 1 ((40 + 30 - 1) / 30) := by
  decide

/-- Claim C2 as amended: the hangover threshold is the floor of
`hangover_ms / frame_ms` with a minimum of 1, and the preroll capacity is
the floor of `preroll_ms / frame_ms` with a minimum of 1 (`frame_ms = 30`
in the source), for every configuration; both are therefore at least 1. -/
theorem C2_amended_floor_min_one (preroll_ms hangover_ms : Nat) :
    (mkGateConfig preroll_ms hangover_ms).preroll_frames =
      max 1 (preroll_ms / 30) ∧
    (mkGateConfig preroll_ms hangover_ms).hangover_frames =
      max 1 (hangover_ms / 30) ∧
    1 ≤ (mkGateConfig preroll_ms hangover_ms).preroll_frames ∧
    1 ≤ (mkGateConfig preroll_ms hangover_ms).hangover_frames :=
  ⟨rfl, rfl, le_max_left 1 _, le_max_left 1 _⟩

/-- Claim C3, counterexample: with `keepalive_ms = 1000`, the last client
data at time 0 and the gate IDLE, receive timeouts at 1000 ms and 1030 ms
both synthesize a keepalive frame — 30 ms apart, far less than
`keepalive_ms` — because the source never resets `last_client_data_ts`
after yielding the zero frame. -/
theorem C3_keepalives_not_spaced :
    runKeepalive 1000 0 [1000, 1030] = [1000, 1030] ∧
    (1030 : Int) - 1000 < 1000 := by
  decide

/-- Claim C3 as amended: synthesizing a keepalive frame does not reset the
injector's timer; during sustained silence with no client data while the
gate is IDLE, a keepalive frame is synthesized at every receive timeout
occurring at least `keepalive_ms` after the last client data, so
consecutive keepalives are spaced by the receive-timeout interval, not by
`keepalive_ms`. -/
theorem C3_amended_keepalive_every_timeout (keepalive_ms last0 : Int)
    (ts : List Int) :
    runKeepalive keepalive_ms last0 ts =
      ts.filter (fun t => decide (keepalive_ms ≤ t - last0)) := by
  induction ts with
  | nil => rfl
  | cons t ts ih =>
    simp only [runKeepalive, timeoutStep, List.filter_cons]
    by_cases h : keepalive_ms ≤ t - last0
    · simp [h, ih]
    · simp [h, ih]

/-- Claim C4: the timeout branch of the receive loop leaves the gate state
(the IDLE/ACTIVE flag, the silence-run counter and the preroll contents)
unchanged, and everything it may forward upstream is the all-zero frame of
`frame_bytes` bytes — in particular the synthesized frame is never stored
in the preroll buffer. -/
theorem C4_keepalive_leaves_gate_unchanged (cfg : GateConfig)
    (keepalive_ms : Int) (st : LoopSt (List Nat)) (now : Int) :
    (loopStep cfg keepalive_ms st (.timeout now)).1.gate = st.gate ∧
    (loopStep cfg keepalive_ms st (.timeout now)).1.gate.speech_active
      = st.gate.speech_active ∧
    (loopStep cfg keepalive_ms st (.timeout now)).1.gate.unvoiced_count
      = st.gate.unvoiced_count ∧
    (loopStep cfg keepalive_ms st (.timeout now)).1.gate.preroll
      = st.gate.preroll ∧
    ∀ f ∈ (loopStep cfg keepalive_ms st (.timeout now)).2,
      f = List.replicate cfg.frame_bytes 0 := by
  refine ⟨rfl, rfl, rfl, rfl, ?_⟩
  intro f hf
  simp only [loopStep] at hf
  rcases ite_eq_or_eq (((timeoutStep keepalive_ms st.gate.speech_active
      st.last_client_data_ts now)).1 = true) [List.replicate cfg.frame_bytes 0]
      ([] : List (List Nat)) with h | h
  · rw [h] at hf
    simpa using hf
  · rw [h] at hf
    simp at hf

/-- Witness for C4: a timeout at 2000 ms with keepalive 1000 ms from the
initial IDLE state keeps the gate untouched and yields only zero frames. -/
theorem C4_keepalive_leaves_gate_unchanged_witness :
    (loopStep (mkGateConfig 150 400) 1000 ⟨initGate (List Nat), 0⟩
        (LoopEvent.timeout 2000)).1.gate
      = (⟨initGate (List Nat), 0⟩ : LoopSt (List Nat)).gate ∧
    (loopStep (mkGateConfig 150 400) 1000 ⟨initGate (List Nat), 0⟩
        (LoopEvent.timeout 2000)).1.gate.speech_active
      = (⟨initGate (List Nat), 0⟩ : LoopSt (List Nat)).gate.speech_active ∧
    (loopStep (mkGateConfig 150 400) 1000 ⟨initGate (List Nat), 0⟩
        (LoopEvent.timeout 2000)).1.gate.unvoiced_count
      = (⟨initGate (List Nat), 0⟩ : LoopSt (List Nat)).gate.unvoiced_count ∧
    (loopStep (mkGateConfig 150 400) 1000 ⟨initGate (List Nat), 0⟩
        (LoopEvent.timeout 2000)).1.gate.preroll
      = (⟨initGate (List Nat), 0⟩ : LoopSt (List Nat)).gate.preroll ∧
    ∀ f ∈ (loopStep (mkGateConfig 150 400) 1000 ⟨initGate (List Nat), 0⟩
        (LoopEvent.timeout 2000)).2,
      f = List.replicate (mkGateConfig 150 400).frame_bytes 0 :=
  C4_keepalive_leaves_gate_unchanged (mkGateConfig 150 400) 1000
    ⟨initGate (List Nat), 0⟩ 2000

/-- Helper: one stabilization step never decreases a defined watermark. -/
theorem watermark_step_mono (tail_words tail_weight : Int) (st : StabState)
    (r : RecResult) (v : Int) (hv : st.last_max_word_end_ns = some v) :
    ∃ v2, (processResult tail_words tail_weight st r).2.last_max_word_end_ns
      = some v2 ∧ v ≤ v2 := by
  obtain ⟨fin, alts⟩ := r
  cases fin
  · exact ⟨v, by simpa [processResult] using hv, le_rfl⟩
  · cases alts with
    | nil => exact ⟨v, by simpa [processResult] using hv, le_rfl⟩
    | cons alt rest =>
      obtain ⟨tr, ws⟩ := alt
      cases ws with
      | nil => exact ⟨v, by simpa [processResult] using hv, le_rfl⟩
      | cons w ws2 =>
        by_cases hb : pyBlank tr = true
        · exact ⟨v, by simpa [processResult, hb] using hv, le_rfl⟩
        · have hb2 : pyBlank tr = false := eq_false_of_ne_true hb
          cases hc : currentMaxEnd (w :: ws2) with
          | none =>
            refine ⟨v, ?_, le_rfl⟩
            have hd : dupCheck (none : Option Int) st.last_max_word_end_ns
                = false := by
              cases h2 : st.last_max_word_end_ns <;> rfl
            simp only [processResult, hb2, hc, hd, Bool.false_eq_true, if_false]
            split
            · next h => exact Bool.noConfusion h
            · split <;> exact hv
          | some c =>
            by_cases hcv : c ≤ v
            · refine ⟨v, ?_, le_rfl⟩
              have hd : dupCheck (some c) (some v) = true := by
                simp [dupCheck, hcv]
              simp only [processResult, hb2, hc, hv, hd]
              simpa using hv
            · refine ⟨c, ?_, le_of_lt (not_le.mp hcv)⟩
              have hd : dupCheck (some c) (some v) = false := by
                simp [dupCheck, hcv]
              simp only [processResult, hb2, hc, hv, hd, Bool.false_eq_true,
                if_false]
              split
              · next h => exact Bool.noConfusion h
              · split <;> rfl

/-- Helper: the watermark is non-decreasing along any sequence of results. -/
theorem watermark_trace_mono (tail_words tail_weight : Int) :
    ∀ (rs : List RecResult) (st : StabState) (v : Int),
      st.last_max_word_end_ns = some v →
      ∃ v2, (processAll tail_words tail_weight st rs).last_max_word_end_ns
        = some v2 ∧ v ≤ v2 := by
  intro rs
  induction rs with
  | nil => exact fun st v hv => ⟨v, hv, le_rfl⟩
  | cons r rs ih =>
    intro st v hv
    obtain ⟨v1, h1, hle1⟩ := watermark_step_mono tail_words tail_weight st r v hv
    obtain ⟨v2, h2, hle2⟩ := ih _ v1 h1
    exact ⟨v2, by simpa [processAll] using h2, le_trans hle1 hle2⟩

/-- Claim C5: for a final result passing the earlier checks (a first
alternative with at least one word, a non-blank transcript) whose words
have at least one defined end time `m = current_max_end`, the stabilizer
rejects the result — no event, watermark untouched — whenever `m` is at
most the stored watermark, and otherwise updates the watermark to `m`
(also when no watermark was stored yet). -/
theorem C5_watermark_suppression (tail_words tail_weight : Int)
    (st : StabState) (r : RecResult) (alt : RecAlternative)
    (rest : List RecAlternative) (hfin : r.is_final = true)
    (halts : r.alternatives = alt :: rest) (hw : alt.words ≠ [])
    (htr : pyBlank alt.transcript = false) (m : Int)
    (hm : currentMaxEnd alt.words = some m) :
    (∀ L, st.last_max_word_end_ns = some L →
      (m ≤ L → processResult tail_words tail_weight st r = (none, st)) ∧
      (L < m → (processResult tail_words tail_weight st r).2 = ⟨some m⟩)) ∧
    (st.last_max_word_end_ns = none →
      (processResult tail_words tail_weight st r).2 = ⟨some m⟩) := by
  obtain ⟨fin, alts⟩ := r
  simp only at hfin halts
  subst hfin
  subst halts
  obtain ⟨tr, ws⟩ := alt
  simp only at hw htr hm ⊢
  cases ws with
  | nil => exact absurd rfl hw
  | cons w ws2 =>
    constructor
    · intro L hL
      constructor
      · intro hml
        have hd : dupCheck (some m) (some L) = true := by
          simp [dupCheck, hml]
        simp [processResult, htr, hm, hL, hd]
      · intro hlm
        have hnot : ¬ (m ≤ L) := not_le.mpr hlm
        have hd : dupCheck (some m) (some L) = false := by
          simp [dupCheck, hnot]
        simp only [processResult, htr, hm, hL, hd, Bool.false_eq_true, if_false]
        split
        · next h => exact Bool.noConfusion h
        · split <;> rfl
    · intro hnone
      have hd : dupCheck (some m) none = false := rfl
      simp only [processResult, htr, hm, hnone, hd, Bool.false_eq_true,
        if_false]
      split
      · next h => exact Bool.noConfusion h
      · split <;> rfl

/-- Witness for C5: with watermark 1000, a final result with word end
times 300 ns and 900 ns (max 900 ≤ 1000) is suppressed and the watermark
is unchanged. -/
theorem C5_watermark_suppression_witness :
    processResult 5 2 ⟨some 1000⟩
      (mkFinal "b" [timedWord 2 300, timedWord 2 900]) = (none, ⟨some 1000⟩) :=
  ((C5_watermark_suppression 5 2 ⟨some 1000⟩
      (mkFinal "b" [timedWord 2 300, timedWord 2 900])
      ⟨"b", [timedWord 2 300, timedWord 2 900]⟩ [] rfl rfl (by decide)
      (by decide) 900 (by decide)).1 1000 rfl).1 (by decide)

/-- Claim C6: over the lifetime of a connection the watermark is
monotonically non-decreasing — a single stabilization step never assigns
it a value strictly smaller than its current defined value, and the same
holds across any sequence of processed results. -/
theorem C6_watermark_monotone (tail_words tail_weight : Int) :
    (∀ (st : StabState) (r : RecResult) (v : Int),
      st.last_max_word_end_ns = some v →
      ∃ v2, (processResult tail_words tail_weight st r).2.last_max_word_end_ns
        = some v2 ∧ v ≤ v2) ∧
    (∀ (st : StabState) (rs : List RecResult) (v : Int),
      st.last_max_word_end_ns = some v →
      ∃ v2, (processAll tail_words tail_weight st rs).last_max_word_end_ns
        = some v2 ∧ v ≤ v2) :=
  ⟨fun st r v hv => watermark_step_mono tail_words tail_weight st r v hv,
   fun st rs v hv => watermark_trace_mono tail_words tail_weight rs st v hv⟩

/-- Witness for C6: from watermark 3, processing a final result with word
end time 900 ns yields a watermark at least 3. -/
theorem C6_watermark_monotone_witness :
    ∃ v2, (processResult 5 2 ⟨some 3⟩
        (mkFinal "a" [timedWord 1 900])).2.last_max_word_end_ns = some v2 ∧
      (3 : Int) ≤ v2 :=
  (C6_watermark_monotone 5 2).1 ⟨some 3⟩ (mkFinal "a" [timedWord 1 900]) 3 rfl

/-- Claim C7: a final result whose (first alternative's) transcript is
empty or whitespace-only produces no event and leaves the stabilization
state unchanged. -/
theorem C7_blank_transcript_rejected (tail_words tail_weight : Int)
    (st : StabState) (r : RecResult) (alt : RecAlternative)
    (rest : List RecAlternative) (halts : r.alternatives = alt :: rest)
    (hb : pyBlank alt.transcript = true) :
    processResult tail_words tail_weight st r = (none, st) := by
  obtain ⟨fin, alts⟩ := r
  simp only at halts
  subst halts
  cases fin
  · rfl
  · obtain ⟨tr, ws⟩ := alt
    simp only at hb
    cases ws with
    | nil => rfl
    | cons w ws2 => simp [processResult, hb]

/-- Witness for C7: a whitespace-only transcript is rejected and the
watermark 7 kept. -/
theorem C7_blank_transcript_rejected_witness :
    processResult 5 2 ⟨some 7⟩ (mkFinal "  " [tagWord 1]) = (none, ⟨some 7⟩) :=
  C7_blank_transcript_rejected 5 2 ⟨some 7⟩ (mkFinal "  " [tagWord 1])
    ⟨"  ", [tagWord 1]⟩ [] rfl (by decide)

/-- Claim C10: a final result in which no word carries a defined end time
bypasses duplicate suppression entirely — its outcome is independent of
the stored watermark, and the watermark is left unchanged. -/
theorem C10_no_end_times_bypass (tail_words tail_weight : Int)
    (r : RecResult) (w1 w2 : Option Int)
    (hend : ∀ alt ∈ r.alternatives, ∀ w ∈ alt.words, w.end_time = none) :
    (processResult tail_words tail_weight ⟨w1⟩ r).1
      = (processResult tail_words tail_weight ⟨w2⟩ r).1 ∧
    (processResult tail_words tail_weight ⟨w1⟩ r).2 = ⟨w1⟩ := by
  obtain ⟨fin, alts⟩ := r
  cases fin
  · exact ⟨rfl, rfl⟩
  · cases alts with
    | nil => exact ⟨rfl, rfl⟩
    | cons alt rest =>
      obtain ⟨tr, ws⟩ := alt
      have hend2 : ∀ w ∈ ws, w.end_time = none := by
        intro x hx
        exact hend ⟨tr, ws⟩ (by simp) x hx
      cases ws with
      | nil => exact ⟨rfl, rfl⟩
      | cons w ws2 =>
        have hc : currentMaxEnd (w :: ws2) = none := by
          unfold currentMaxEnd
          have hnil : (w :: ws2).filterMap (fun x => x.end_time.map to_ns)
              = [] := by
            rw [List.filterMap_eq_nil_iff]
            intro a ha
            rw [hend2 a ha]
            rfl
          rw [hnil]
          rfl
        have hd1 : dupCheck (none : Option Int) w1 = false := by
          cases w1 <;> rfl
        have hd2 : dupCheck (none : Option Int) w2 = false := by
          cases w2 <;> rfl
        by_cases hb : pyBlank tr = true
        · simp [processResult, hb]
        · have hb2 : pyBlank tr = false := eq_false_of_ne_true hb
          cases htc : tagCounts tail_words tail_weight (w :: ws2) with
          | nil => constructor <;> simp [processResult, hb2, hc, hd1, hd2, htc]
          | cons c0 crest =>
            constructor <;> simp [processResult, hb2, hc, hd1, hd2, htc]

/-- Witness for C10: a result with a tagged word but no end time gives the
same event whether the watermark is 5 or absent, and keeps watermark 5. -/
theorem C10_no_end_times_bypass_witness :
    (processResult 5 2 ⟨some 5⟩ (mkFinal "hi" [tagWord 1])).1
      = (processResult 5 2 ⟨none⟩ (mkFinal "hi" [tagWord 1])).1 ∧
    (processResult 5 2 ⟨some 5⟩ (mkFinal "hi" [tagWord 1])).2 = ⟨some 5⟩ :=
  C10_no_end_times_bypass 5 2 (mkFinal "hi" [tagWord 1]) (some 5) none
    (by decide)

/-- Helper: bumping a tag updates its own histogram entry by `k`. -/
theorem histGet_bump_self (h : List (Int × Int)) (t k : Int) :
    histGet (bump h t k) t = some ((histGet h t).getD 0 + k) := by
  induction h with
  | nil => simp [bump, histGet]
  | cons p rest ih =>
    obtain ⟨a, n⟩ := p
    by_cases hat : a = t
    · subst hat
      simp [bump, histGet]
    · simp [bump, histGet, hat, ih]

/-- Helper: bumping a tag leaves other entries unchanged. -/
theorem histGet_bump_ne (h : List (Int × Int)) (t k u : Int) (hu : u ≠ t) :
    histGet (bump h t k) u = histGet h u := by
  induction h with
  | nil => simp [bump, histGet, hu.symm]
  | cons p rest ih =>
    obtain ⟨a, n⟩ := p
    by_cases hat : a = t
    · subst hat
      simp [bump, histGet, hu.symm]
    · simp [bump, histGet, hat, ih]

/-- Helper: bumping appends the tag's key at the end iff it is new. -/
theorem keys_bump (h : List (Int × Int)) (t k : Int) :
    (bump h t k).map Prod.fst =
      if t ∈ h.map Prod.fst then h.map Prod.fst
      else h.map Prod.fst ++ [t] := by
  induction h with
  | nil => simp [bump]
  | cons p rest ih =>
    obtain ⟨a, n⟩ := p
    by_cases hat : a = t
    · subst hat
      simp [bump]
    · by_cases hmem : t ∈ rest.map Prod.fst
      · simp [bump, hat, ih, hmem, List.mem_cons]
      · have hta : ¬ (t = a) := fun h2 => hat h2.symm
        simp [bump, hat, ih, hmem, List.mem_cons, hta]

theorem bumpAll_nil (h : List (Int × Int)) (k : Int) : bumpAll h [] k = h := rfl

theorem bumpAll_cons (h : List (Int × Int)) (s : Int) (ss : List Int)
    (k : Int) : bumpAll h (s :: ss) k = bumpAll (bump h s k) ss k := rfl

/-- Helper: folding `bump` over a tag list adds `k` per occurrence. -/
theorem histGet_bumpAll (k : Int) (ts : List Int) :
    ∀ (h : List (Int × Int)) (t : Int),
      histGet (bumpAll h ts k) t =
        if t ∈ ts then some ((histGet h t).getD 0 + k * ts.count t)
        else histGet h t := by
  induction ts with
  | nil => intro h t; simp [bumpAll_nil]
  | cons s ss ih =>
    intro h t
    rw [bumpAll_cons, ih]
    by_cases hts : t = s
    · subst hts
      by_cases hmem : t ∈ ss
      · rw [if_pos hmem, if_pos (List.mem_cons_self t ss)]
        rw [histGet_bump_self]
        simp only [Option.getD_some]
        congr 1
        rw [List.count_cons_self]
        push_cast
        ring
      · rw [if_neg hmem, if_pos (List.mem_cons_self t ss)]
        rw [histGet_bump_self]
        have hc : ss.count t = 0 := List.count_eq_zero.mpr hmem
        rw [List.count_cons_self, hc]
        push_cast
        congr 1
        ring
    · have hne : t ≠ s := hts
      by_cases hmem : t ∈ ss
      · rw [if_pos hmem, if_pos (List.mem_cons_of_mem s hmem)]
        rw [histGet_bump_ne _ _ _ _ hne]
        rw [List.count_cons_of_ne hne]
      · rw [if_neg hmem, if_neg ?hh]
        · exact histGet_bump_ne _ _ _ _ hne
        · intro hcon
          rcases List.mem_cons.mp hcon with h1 | h1
          · exact hne h1
          · exact hmem h1

/-- Helper: `firstOccurAux` only depends on the membership of `seen`. -/
theorem firstOccurAux_congr (ts : List Int) :
    ∀ s1 s2, (∀ x, x ∈ s1 ↔ x ∈ s2) →
      firstOccurAux s1 ts = firstOccurAux s2 ts := by
  induction ts with
  | nil => intro s1 s2 _; rfl
  | cons t ts ih =>
    intro s1 s2 hseq
    simp only [firstOccurAux]
    by_cases h1 : t ∈ s1
    · rw [if_pos h1, if_pos ((hseq t).mp h1), ih s1 s2 hseq]
    · rw [if_neg h1, if_neg (fun h2 => h1 ((hseq t).mpr h2))]
      rw [ih (t :: s1) (t :: s2) (fun x => by simp [List.mem_cons, hseq x])]

/-- Helper: membership in the first-occurrence list. -/
theorem mem_firstOccurAux (x : Int) (ts : List Int) :
    ∀ seen, x ∈ firstOccurAux seen ts ↔ x ∈ ts ∧ x ∉ seen := by
  induction ts with
  | nil => intro seen; simp [firstOccurAux]
  | cons t ts ih =>
    intro seen
    simp only [firstOccurAux]
    by_cases h : t ∈ seen
    · rw [if_pos h, ih seen]
      constructor
      · rintro ⟨hx, hns⟩
        exact ⟨List.mem_cons_of_mem _ hx, hns⟩
      · rintro ⟨hx, hns⟩
        rcases List.mem_cons.mp hx with rfl | hx2
        · exact absurd h hns
        · exact ⟨hx2, hns⟩
    · rw [if_neg h]
      constructor
      · intro hmem
        rcases List.mem_cons.mp hmem with rfl | hx2
        · exact ⟨List.mem_cons_self x ts, h⟩
        · obtain ⟨h1, h2⟩ := (ih (t :: seen)).mp hx2
          refine ⟨List.mem_cons_of_mem _ h1,
            fun hs => h2 (List.mem_cons_of_mem _ hs)⟩
      · rintro ⟨hx, hns⟩
        by_cases hxt : x = t
        · subst hxt
          exact List.mem_cons_self x _
        · rcases List.mem_cons.mp hx with h1 | h1
          · exact absurd h1 hxt
          · refine List.mem_cons_of_mem _ ((ih (t :: seen)).mpr ⟨h1, ?_⟩)
            intro hcon
            rcases List.mem_cons.mp hcon with h2 | h2
            · exact hxt h2
            · exact hns h2

/-- Helper: the first-occurrence list has no duplicates. -/
theorem nodup_firstOccurAux (ts : List Int) :
    ∀ seen, (firstOccurAux seen ts).Nodup := by
  induction ts with
  | nil => intro seen; simp [firstOccurAux]
  | cons t ts ih =>
    intro seen
    simp only [firstOccurAux]
    by_cases h : t ∈ seen
    · rw [if_pos h]
      exact ih seen
    · rw [if_neg h]
      refine List.nodup_cons.mpr ⟨?_, ih (t :: seen)⟩
      intro hmem
      exact ((mem_firstOccurAux t ts (t :: seen)).mp hmem).2
        (List.mem_cons_self t seen)

/-- Helper: nothing new is collected when all tags were already seen. -/
theorem firstOccurAux_eq_nil (ts : List Int) :
    ∀ seen, (∀ x ∈ ts, x ∈ seen) → firstOccurAux seen ts = [] := by
  induction ts with
  | nil => intro seen _; rfl
  | cons t ts ih =>
    intro seen hsub
    simp only [firstOccurAux]
    rw [if_pos (hsub t (List.mem_cons_self t ts))]
    exact ih seen (fun x hx => hsub x (List.mem_cons_of_mem t hx))

/-- Helper: with distinct keys, lookups determine every stored value. -/
theorem snd_eq_of_histGet (f : Int → Int) :
    ∀ (h : List (Int × Int)), (h.map Prod.fst).Nodup →
      (∀ t ∈ h.map Prod.fst, histGet h t = some (f t)) →
      ∀ p ∈ h, p.2 = f p.1 := by
  intro h
  induction h with
  | nil =>
    intro _ _ p hp
    simp at hp
  | cons q rest ih =>
    intro hnd hget p hp
    obtain ⟨a, n⟩ := q
    rw [List.map_cons] at hnd
    have hnd2 := List.nodup_cons.mp hnd
    have ha := hget a (by simp)
    rw [histGet, if_pos rfl] at ha
    rcases List.mem_cons.mp hp with rfl | hp2
    · simpa using ha
    · refine ih hnd2.2 ?_ p hp2
      intro t ht
      have hta : ¬ (a = t) := by
        intro he
        subst he
        exact hnd2.1 ht
      have h2 := hget t (by simp [ht])
      rwa [histGet, if_neg hta] at h2

/-- Helper: tags of dropped-suffix words are tags of the whole list. -/
theorem wordTags_drop_mem (l : List WordInfo) (nd : Nat) :
    ∀ x ∈ wordTags (l.drop nd), x ∈ wordTags l := by
  intro x hx
  unfold wordTags at hx ⊢
  rcases List.mem_filterMap.mp hx with ⟨w, hw, hwt⟩
  exact List.mem_filterMap.mpr ⟨w, List.mem_of_mem_drop hw, hwt⟩

/-- Helper: the source's `max(0, len - tail_words)` start index selects
exactly the last `tail_words` words. -/
theorem tail_drop_eq (l : List WordInfo) (tw : Int) :
    l.drop (tailStart l.length tw) = l.drop (l.length - tw.toNat) := by
  rcases le_or_lt tw 0 with h | h
  · have h1 : l.length ≤ tailStart l.length tw := by
      unfold tailStart
      omega
    have h2 : l.length ≤ l.length - tw.toNat := by
      omega
    rw [List.drop_eq_nil_of_le h1, List.drop_eq_nil_of_le h2]
  · have h3 : tailStart l.length tw = l.length - tw.toNat := by
      unfold tailStart
      omega
    rw [h3]

/-- Helper: the unweighted histogram stores each tag's occurrence count. -/
theorem histGet_base (words : List WordInfo) (t : Int) :
    histGet (bumpAll [] (wordTags words) 1) t =
      if t ∈ wordTags words then some ((wordTags words).count t : Int)
      else none := by
  rw [histGet_bumpAll]
  split
  · simp [histGet]
  · rfl

/-- Helper: folding `bump` appends new keys in first-occurrence order. -/
theorem keys_bumpAll (k : Int) (ts : List Int) :
    ∀ h : List (Int × Int),
      (bumpAll h ts k).map Prod.fst =
        h.map Prod.fst ++ firstOccurAux (h.map Prod.fst) ts := by
  induction ts with
  | nil =>
    intro h
    simp [bumpAll_nil, firstOccurAux]
  | cons s ss ih =>
    intro h
    rw [bumpAll_cons, ih (bump h s k), keys_bump]
    by_cases hmem : s ∈ h.map Prod.fst
    · rw [if_pos hmem]
      simp only [firstOccurAux, if_pos hmem]
    · rw [if_neg hmem]
      simp only [firstOccurAux, if_neg hmem]
      rw [List.append_assoc, List.singleton_append]
      congr 2
      exact firstOccurAux_congr ss (h.map Prod.fst ++ [s]) (s :: h.map Prod.fst)
        (fun x => by simp [List.mem_append, List.mem_cons, or_comm])

/-- Helper: the weighted histogram's keys are the word tags in
first-encountered order (tail weighting introduces no new keys). -/
theorem keys_tagCounts (tw twt : Int) (words : List WordInfo) :
    (tagCounts tw twt words).map Prod.fst
      = firstOccurList (wordTags words) := by
  unfold tagCounts firstOccurList
  by_cases hg : 1 < twt ∧ 0 < tw
  · rw [if_pos hg, keys_bumpAll, keys_bumpAll]
    simp only [List.map_nil, List.nil_append]
    have hnil : firstOccurAux (firstOccurAux [] (wordTags words))
        (wordTags (words.drop (tailStart words.length tw))) = [] := by
      apply firstOccurAux_eq_nil
      intro x hx
      rw [mem_firstOccurAux]
      exact ⟨wordTags_drop_mem words _ x hx, by simp⟩
    rw [hnil, List.append_nil]
  · rw [if_neg hg, keys_bumpAll]
    simp

/-- Helper: for `tail_weight ≥ 1` the weighted histogram stores exactly
the specification's weighted count for every occurring tag. -/
theorem histGet_tagCounts (tw twt : Int) (words : List WordInfo) (t : Int)
    (ht : t ∈ wordTags words) (htwt : 1 ≤ twt) :
    histGet (tagCounts tw twt words) t =
      some (specWeight tw twt words t) := by
  unfold tagCounts specWeight
  by_cases hg : 1 < twt ∧ 0 < tw
  · rw [if_pos hg, histGet_bumpAll]
    by_cases hmem : t ∈ wordTags (words.drop (tailStart words.length tw))
    · rw [if_pos hmem, histGet_base, if_pos ht]
      simp only [Option.getD_some]
      congr 2
      unfold tailTags
      rw [← tail_drop_eq]
    · rw [if_neg hmem, histGet_base, if_pos ht]
      have hz : (tailTags tw words).count t = 0 := by
        rw [List.count_eq_zero]
        unfold tailTags
        rw [← tail_drop_eq]
        exact hmem
      rw [hz]
      simp
  · rw [if_neg hg, histGet_base, if_pos ht]
    rcases not_and_or.mp hg with h1 | h2
    · have h3 : twt = 1 := le_antisymm (by omega) htwt
      subst h3
      simp
    · have h4 : tw.toNat = 0 := by omega
      have h5 : tailTags tw words = [] := by
        unfold tailTags
        rw [h4, Nat.sub_zero, List.drop_length]
        rfl
      rw [h5]
      simp

/-- Helper: Python's first-wins `max` over histogram items computes the
first-occurrence argmax of the stored values. -/
theorem pyMax_spec (f : Int → Int) :
    ∀ (h : List (Int × Int)) (best : Int × Int),
      best.2 = f best.1 → (∀ p ∈ h, p.2 = f p.1) →
      (pyMaxBySnd best h).1 = argmaxFirstAux f best.1 (h.map Prod.fst) := by
  intro h
  induction h with
  | nil => intro best _ _; rfl
  | cons x xs ih =>
    intro best hb hall
    have hx : x.2 = f x.1 := hall x (by simp)
    simp only [pyMaxBySnd, argmaxFirstAux, List.map_cons]
    have hval : (if best.2 < x.2 then x else best).2
        = f ((if best.2 < x.2 then x else best).1) := by
      split
      · exact hx
      · exact hb
    rw [ih _ hval (fun p hp => hall p (List.mem_cons_of_mem x hp))]
    congr 1
    rw [hb, hx, apply_ite Prod.fst]

/-- Claim C8: whenever the stabilizer accepts a final result and emits an
event (and `tail_weight ≥ 1`), the emitted speaker tag is the argmax of
the histogram that counts each defined word tag once plus
`tail_weight - 1` extra for each of the last `tail_words` words, ties
broken by the first-encountered insertion order of tags. -/
theorem C8_tail_weighted_argmax (tail_words tail_weight : Int)
    (htwt : 1 ≤ tail_weight) (st st2 : StabState) (r : RecResult)
    (alt : RecAlternative) (rest : List RecAlternative) (e : StabilizedEvent)
    (halts : r.alternatives = alt :: rest)
    (hp : processResult tail_words tail_weight st r = (some e, st2)) :
    argmaxFirst (specWeight tail_words tail_weight alt.words)
      (firstOccurList (wordTags alt.words)) = some e.speaker_tag := by
  obtain ⟨fin, alts⟩ := r
  simp only at halts
  subst halts
  obtain ⟨tr, ws⟩ := alt
  simp only
  cases fin
  · exact absurd hp (by simp [processResult])
  · cases ws with
    | nil => exact absurd hp (by simp [processResult])
    | cons w ws2 =>
      simp only [processResult] at hp
      rw [if_neg (by simp : ¬ (true = false))] at hp
      by_cases hb : pyBlank tr = true
      · rw [if_pos hb] at hp
        simp at hp
      · have hb2 : pyBlank tr = false := eq_false_of_ne_true hb
        rw [hb2, if_neg (by simp : ¬ (false = true))] at hp
        by_cases hd : dupCheck (currentMaxEnd (w :: ws2))
            st.last_max_word_end_ns = true
        · rw [if_pos hd] at hp
          simp at hp
        · rw [if_neg hd] at hp
          cases htc : tagCounts tail_words tail_weight (w :: ws2) with
          | nil =>
            rw [htc] at hp
            simp at hp
          | cons c0 crest =>
            rw [htc] at hp
            injection hp with h1 h2
            injection h1 with h3
            have hkeys := keys_tagCounts tail_words tail_weight (w :: ws2)
            rw [htc, List.map_cons] at hkeys
            rw [← h3]
            rw [← hkeys]
            simp only [argmaxFirst]
            have hnd : (c0.1 :: crest.map Prod.fst).Nodup := by
              rw [hkeys]
              exact nodup_firstOccurAux _ []
            have hget : ∀ t ∈ (c0 :: crest).map Prod.fst,
                histGet (c0 :: crest) t
                  = some (specWeight tail_words tail_weight (w :: ws2) t) := by
              intro t ht
              rw [← htc]
              apply histGet_tagCounts
              · rw [List.map_cons, hkeys] at ht
                have ht2 := (mem_firstOccurAux t (wordTags (w :: ws2)) []).mp ht
                exact ht2.1
              · exact htwt
            have hvals := snd_eq_of_histGet
              (specWeight tail_words tail_weight (w :: ws2)) (c0 :: crest)
              (by rw [List.map_cons]; exact hnd) hget
            have hc0 : c0.2
                = specWeight tail_words tail_weight (w :: ws2) c0.1 :=
              hvals c0 (List.mem_cons_self c0 crest)
            have hrest : ∀ p ∈ crest,
                p.2 = specWeight tail_words tail_weight (w :: ws2) p.1 :=
              fun p hp2 => hvals p (List.mem_cons_of_mem c0 hp2)
            rw [← pyMax_spec (specWeight tail_words tail_weight (w :: ws2))
              crest c0 hc0 hrest]

/-- Witness for C8: the spec example — words tagged `[1,1,1,2,2]` with
`tail_words = 2`, `tail_weight = 2` give histogram `{1:3, 2:4}`, and the
emitted speaker tag is 2. -/
theorem C8_tail_weighted_argmax_witness :
    argmaxFirst
      (specWeight 2 2 [tagWord 1, tagWord 1, tagWord 1, tagWord 2, tagWord 2])
      (firstOccurList
        (wordTags [tagWord 1, tagWord 1, tagWord 1, tagWord 2, tagWord 2]))
      = some 2 :=
  C8_tail_weighted_argmax 2 2 (by decide) ⟨none⟩ ⟨none⟩
    (mkFinal "hello" [tagWord 1, tagWord 1, tagWord 1, tagWord 2, tagWord 2])
    ⟨"hello", [tagWord 1, tagWord 1, tagWord 1, tagWord 2, tagWord 2]⟩ []
    ⟨2, "hello", true⟩ rfl (by decide)

/-- Claim C9 (hysteresis variant, modelled from the spec): without
tail-weighting, when a previous speaker tag `p` exists and the histogram
argmax candidate differs from it, the candidate is rejected in favour of
`p` while the trailing run of words matching the candidate is shorter
than `min_switch_words`, and accepted (updating the previous tag) once
the run reaches `min_switch_words`. -/
theorem C9_switch_hysteresis (min_switch_words : Nat) (p cand : Int)
    (words : List WordInfo)
    (hcand : argmaxFirst (fun t => ((wordTags words).count t : Int))
      (firstOccurList (wordTags words)) = some cand)
    (hne : cand ≠ p) :
    (trailingRun cand words < min_switch_words →
      hysteresisStabilize min_switch_words (some p) words = some (p, some p)) ∧
    (min_switch_words ≤ trailingRun cand words →
      hysteresisStabilize min_switch_words (some p) words
        = some (cand, some cand)) := by
  constructor
  · intro hrun
    unfold hysteresisStabilize
    rw [hcand]
    simp only [hysteresisChoose]
    rw [if_pos ⟨hne.symm, hrun⟩]
  · intro hrun
    unfold hysteresisStabilize
    rw [hcand]
    simp only [hysteresisChoose]
    rw [if_neg (fun h => absurd h.2 (not_lt.mpr hrun))]

/-- Witness for C9: previous tag 1, candidate 2 with a trailing run of 2
matching words and `min_switch_words = 3` — the emitted tag stays 1. -/
theorem C9_switch_hysteresis_witness :
    hysteresisStabilize 3 (some 1)
      [tagWord 2, tagWord 1, tagWord 2, tagWord 2] = some (1, some 1) :=
  (C9_switch_hysteresis 3 1 2 [tagWord 2, tagWord 1, tagWord 2, tagWord 2]
    (by decide) (by decide)).1 (by decide)

end Diar
